import Mathlib

/-!
Shallow embedding of `src/NovelSearch/cli.py` (the NovelSearch CLI).

The program scrapes award-nomination tables from Wikipedia pages, merges the
scraped entries into a persisted JSON list keyed by `(title, year)`, and
interactively annotates each record with a point-of-view classification.

Modelling conventions:
* A JSON record becomes the structure `Novel`; Python `None` for `pov`
  becomes `Option.none`.
* HTML input to the parser is abstracted to the data the code actually
  inspects: for each table row, the list of stripped cell texts
  (`find_all(["th", "td"])` + `get_text(strip=True)`) and the list of
  stripped `<i>`-tag texts.
* Python strings are Lean `String`s; the string operations the code uses
  (`.lower()`, `.strip()`, `.split()`, `in`, `sorted` of two strings,
  `int(...)`) are re-implemented on the character list so that all
  definitions evaluate inside the kernel.  Python compares strings by code
  point, which is what `cmpChars` does.
* The `IndexError` that `year_cell.split()[0]` raises on an empty cell is
  modelled with `Except.error`; one failing row aborts the whole scrape,
  exactly like the uncaught Python exception.
* Python's `dict` (insertion ordered, unique keys) is an association list:
  assignment replaces the first binding in place or appends a new one.
* `list.sort` is a stable sort; a stable sort for a total preorder is
  extensionally unique, so it is modelled with `List.insertionSort`.
* The interactive `process` loop is modelled with explicit user input as a
  list of strings and a fuel counter equal to the number of inputs; every
  loop iteration consumes at least one input, so the fuel never runs out
  before the inputs do.
-/

set_option maxRecDepth 4000

namespace NovelSearch

/-- A novel record, as built by `scrape_award_novels` in cli.py:
`{ "title": ..., "award": ..., "year": <int>, "pov": None, "read": False }`. -/
structure Novel where
  title : String
  award : String
  year : Int
  pov : Option String
  read : Bool
deriving DecidableEq, Repr

/-- The `(title, year)` key used by both merge loops in cli.py. -/
def keyOf (n : Novel) : String × Int := (n.title, n.year)

/-! ### String primitives (Python semantics, kernel-computable) -/

/-- ASCII lower-casing of one character, as `str.lower()` does on the ASCII
headers and inputs this program handles. -/
def lowerChar (c : Char) : Char :=
  if 65 ≤ c.toNat ∧ c.toNat ≤ 90 then Char.ofNat (c.toNat + 32) else c

/-- Python `s.lower()`. -/
def pyLower (s : String) : String := ⟨s.data.map lowerChar⟩

/-- Python `s.strip()`: drop leading and trailing whitespace. -/
def pyStrip (s : String) : String :=
  ⟨((s.data.dropWhile Char.isWhitespace).reverse.dropWhile Char.isWhitespace).reverse⟩

/-- Whether `needle` occurs at the start of `hay` (character lists). -/
def listIsPre : List Char → List Char → Bool
  | [], _ => true
  | _ :: _, [] => false
  | a :: as, b :: bs => a = b && listIsPre as bs

/-- Whether `needle` occurs somewhere inside `hay` (character lists). -/
def listHasSub (needle : List Char) : List Char → Bool
  | [] => needle.isEmpty
  | b :: bs => listIsPre needle (b :: bs) || listHasSub needle bs

/-- Python substring test `needle in hay`. -/
def containsSub (hay needle : String) : Bool := listHasSub needle.data hay.data

/-- Helper for `pySplitWs`: accumulate the current token (reversed). -/
def wsSplitGo : List Char → List Char → List String
  | acc, [] => if acc.isEmpty then [] else [⟨acc.reverse⟩]
  | acc, c :: cs =>
    if c.isWhitespace then
      if acc.isEmpty then wsSplitGo [] cs else (⟨acc.reverse⟩ : String) :: wsSplitGo [] cs
    else wsSplitGo (c :: acc) cs

/-- Python `s.split()` with no argument: split on whitespace runs, dropping
empty tokens. -/
def pySplitWs (s : String) : List String := wsSplitGo [] s.data

/-- Value of a decimal digit character, if it is one. -/
def digitVal? (c : Char) : Option Nat :=
  if 48 ≤ c.toNat ∧ c.toNat ≤ 57 then some (c.toNat - 48) else none

/-- Parse a nonempty all-digit character list. -/
def natFromDigits : List Char → Nat → Option Nat
  | [], acc => some acc
  | c :: cs, acc =>
    match digitVal? c with
    | some d => natFromDigits cs (10 * acc + d)
    | none => none

/-- Parse a nonempty digit string to a `Nat`. -/
def parseNat? (cs : List Char) : Option Nat :=
  if cs.isEmpty then none else natFromDigits cs 0

/-- `parse_int` from cli.py: `int(s)` on a whitespace-free token, returning 0
when parsing fails (`ValueError`). -/
def parse_int (s : String) : Int :=
  match s.data with
  | '-' :: rest =>
    match parseNat? rest with
    | some n => -(n : Int)
    | none => 0
  | '+' :: rest =>
    match parseNat? rest with
    | some n => (n : Int)
    | none => 0
  | cs =>
    match parseNat? cs with
    | some n => (n : Int)
    | none => 0

/-- Python's code-point-wise three-way comparison of two strings, used to
model `sorted` on strings. -/
def cmpChars : List Char → List Char → Ordering
  | [], [] => .eq
  | [], _ :: _ => .lt
  | _ :: _, [] => .gt
  | a :: as, b :: bs =>
    if a.toNat < b.toNat then .lt
    else if b.toNat < a.toNat then .gt
    else cmpChars as bs

/-- Python string `a <= b` (code-point lexicographic). -/
def pyStrLe (a b : String) : Bool := cmpChars a.data b.data ≠ Ordering.gt

/-! ### The collector: `scrape_award_novels` -/

/-- One `<tr>` of a wikitable, reduced to what the parser reads: the stripped
texts of its `th`/`td` cells and the stripped texts of its `<i>` tags. -/
structure Row where
  cells : List String
  itags : List String
deriving DecidableEq, Repr

/-- Records built from the `<i>` tags of one row (cli.py lines 120-131):
one record per nonempty title, with the carried year. -/
def mkNovels (award : String) (year : Int) (itags : List String) : List Novel :=
  (itags.filter (fun t => t ≠ "")).map
    (fun t => { title := t, award := award, year := year, pov := none, read := false })

/-- Prepend already-collected records to a scrape continuation, propagating a
raised exception. -/
def withNovels (recs : List Novel) : Except String (List Novel) → Except String (List Novel)
  | .ok r => .ok (recs ++ r)
  | .error e => .error e

/-- The body-row loop of `scrape_award_novels` (cli.py lines 102-131).
`cy` is `current_year`, the last positively parsed year (0 initially).
An empty year cell makes `year_cell.split()[0]` raise `IndexError`. -/
def scrapeRows (award : String) (yearCol : Nat) : Int → List Row → Except String (List Novel)
  | _, [] => .ok []
  | cy, row :: rest =>
    match row.cells[yearCol]? with
    | some yc =>
      if containsSub (pyLower yc) "retro" then scrapeRows award yearCol cy rest
      else
        match (pySplitWs yc).head? with
        | none => .error "IndexError"
        | some tok =>
          let ny := parse_int tok
          let cy2 := if ny > 0 then ny else cy
          if cy2 = 0 then scrapeRows award yearCol cy2 rest
          else withNovels (mkNovels award cy2 row.itags) (scrapeRows award yearCol cy2 rest)
    | none =>
      if cy = 0 then scrapeRows award yearCol cy rest
      else withNovels (mkNovels award cy row.itags) (scrapeRows award yearCol cy rest)

/-- Index of the `Year` column: the first header cell whose lowered text
contains `"year"` but not `"awarded"` (cli.py lines 91-96). -/
def yearColOf (headerCells : List String) : Option Nat :=
  headerCells.findIdx? (fun c => containsSub (pyLower c) "year" && !containsSub (pyLower c) "awarded")

/-- Process one `wikitable` (cli.py lines 76-131): skip empty tables, Retro
Hugo tables (header has both `"year"` and `"year awarded"`), and tables
without a `Year` column; otherwise run the row loop with `current_year = 0`. -/
def scrapeTable (award : String) : List Row → Except String (List Novel)
  | [] => .ok []
  | header :: body =>
    let hts := header.cells.map pyLower
    if hts.contains "year" && hts.contains "year awarded" then .ok []
    else
      match yearColOf header.cells with
      | none => .ok []
      | some yearCol => scrapeRows award yearCol 0 body

/-- `scrape_award_novels(url, award_name)` with the fetched page abstracted to
its list of wikitables.  Concatenates the records of all tables; a raised
exception aborts the whole scrape. -/
def scrape_award_novels : List (List Row) → String → Except String (List Novel)
  | [], _ => .ok []
  | t :: ts, award =>
    match scrapeTable award t with
    | .error e => .error e
    | .ok recs => withNovels recs (scrape_award_novels ts award)

/-! ### The merger: the `scrape` command's merge-by-key -/

/-- Python dict assignment `m[k] = v` on an insertion-ordered association
list: replace the first binding of `k` in place, else append. -/
def mapSet : List ((String × Int) × Novel) → (String × Int) → Novel → List ((String × Int) × Novel)
  | [], k, v => [(k, v)]
  | p :: rest, k, v => if p.1 = k then (k, v) :: rest else p :: mapSet rest k v

/-- Python dict lookup `m.get(k)`. -/
def mapGet? : List ((String × Int) × Novel) → (String × Int) → Option Novel
  | [], _ => none
  | p :: rest, k => if p.1 = k then some p.2 else mapGet? rest k

/-- The keys of the dict, in order. -/
def mapKeys (m : List ((String × Int) × Novel)) : List (String × Int) := m.map (fun p => p.1)

/-- `list(m.values())`. -/
def mapVals (m : List ((String × Int) × Novel)) : List Novel := m.map (fun p => p.2)

/-- `"|".join(sorted([a, b]))` from cli.py lines 210-211: join the two award
strings in sorted order.  Note this concatenates the two whole strings; it
does not split or deduplicate their labels. -/
def joinAwards (a b : String) : String :=
  if pyStrLe a b then a ++ "|" ++ b else b ++ "|" ++ a

/-- The award-combining step of the merge (cli.py lines 208-211): combine the
award strings if they differ. -/
def mergeAward (ex item1 : Novel) : Novel :=
  if item1.award ≠ ex.award then { item1 with award := joinAwards item1.award ex.award } else item1

/-- The record stored when a new `item` collides with an `ex`isting record
under the same key (cli.py lines 204-212): keep a non-null existing pov,
then combine the award strings if they differ. -/
def mergeItem (ex item : Novel) : Novel :=
  mergeAward ex (if ex.pov.isSome then { item with pov := ex.pov } else item)

/-- One iteration of the `for item in combined_new` merge loop
(cli.py lines 200-212). -/
def mergeStep (m : List ((String × Int) × Novel)) (item : Novel) : List ((String × Int) × Novel) :=
  match mapGet? m (keyOf item) with
  | none => mapSet m (keyOf item) item
  | some ex => mapSet m (keyOf item) (mergeItem ex item)

/-- Sort key `lambda x: (x["year"], x["title"])` as a Boolean `≤`. -/
def keyLeB (a b : Novel) : Bool :=
  if a.year < b.year then true
  else if b.year < a.year then false
  else pyStrLe a.title b.title

/-- The `(year, title)` order as a relation. -/
def keyLE (a b : Novel) : Prop := keyLeB a b = true

instance : DecidableRel keyLE := fun a b => inferInstanceAs (Decidable (keyLeB a b = true))

/-- `merged_data.sort(key=lambda x: (x["year"], x["title"]))`: a stable
ascending sort by `(year, title)`. -/
def sortByYearTitle (l : List Novel) : List Novel := List.insertionSort keyLE l

/-- Default of the `--after` click option of the `scrape` command. -/
def DEFAULT_AFTER : Int := 1990

/-- One iteration of the `for item in existing_data` dict-building loop
(cli.py lines 194-197): `existing_map[key] = item`. -/
def insStep (m : List ((String × Int) × Novel)) (it : Novel) : List ((String × Int) × Novel) :=
  mapSet m (keyOf it) it

/-- The pure core of the `scrape` command (cli.py lines 184-221), taking the
previously persisted list and the freshly collected records
(`hugo_data + nebula_data`) as inputs and returning the list that is saved:
filter both lists by `year >= after`, build a dict of the existing records
keyed by `(title, year)`, merge the new records into it, and sort the values
by `(year, title)`. -/
def scrape (existing combined_new : List Novel) (after : Int) : List Novel :=
  sortByYearTitle (mapVals
    ((combined_new.filter (fun n => after ≤ n.year)).foldl mergeStep
      ((existing.filter (fun n => after ≤ n.year)).foldl insStep [])))

/-! ### The annotator: the `process` command -/

/-- Python truthiness test `not novel["pov"]` on an optional string. -/
def povFalsy (p : Option String) : Bool :=
  match p with
  | none => true
  | some s => s = ""

/-- `novel["pov"] = ...; novel["read"] = is_read`. -/
def annotate (n : Novel) (pov : String) (rd : Bool) : Novel :=
  { n with pov := some pov, read := rd }

/-- The `for i, novel in enumerate(all_novels)` search for the first record
with a falsy pov (cli.py lines 244-248). -/
def findUnprocessedIdx : List Novel → Option Nat
  | [] => none
  | n :: rest =>
    if povFalsy n.pov then some 0 else (findUnprocessedIdx rest).map (· + 1)

/-- The inner `while True` input loop (cli.py lines 261-285): consume user
inputs until one is `quit`/`exit` (`some (none, rest)`) or a valid POV entry
(`some (some (pov, is_read), rest)`).  `none` means the input list ran dry
(the real program would block on `input()` forever). -/
def consumeInputs : List String → Option (Option (String × Bool) × List String)
  | [] => none
  | i :: rest =>
    let u := pyLower (pyStrip i)
    if u = "quit" ∨ u = "exit" then some (none, rest)
    else
      let isRead := u.data.contains 'r'
      let povIn : String := ⟨u.data.filter (fun c => c ≠ 'r')⟩
      if povIn = "1" then some (some ("first", isRead), rest)
      else if povIn = "2" then some (some ("second", isRead), rest)
      else if povIn = "3" then some (some ("third", isRead), rest)
      else consumeInputs rest

/-- The outer `while True` loop of `process` (cli.py lines 242-290), with a
fuel counter for termination.  Each completed round annotates the first
unprocessed record, saves the whole updated list (`save_novels_to_json`),
and yields the pair (prompted record, saved snapshot). -/
def processRoundsFuel : Nat → List Novel → List String → List (Novel × List Novel)
  | 0, _, _ => []
  | fuel + 1, novels, inputs =>
    match findUnprocessedIdx novels with
    | none => []
    | some idx =>
      match consumeInputs inputs with
      | none => []
      | some (none, _) => []
      | some (some (pv, rd), rest) =>
        match novels[idx]? with
        | none => []
        | some cur =>
          let novels2 := novels.set idx (annotate cur pv rd)
          (cur, novels2) :: processRoundsFuel fuel novels2 rest

/-- The `process` loop on a given input list.  Every round consumes at least
one input, so `inputs.length` fuel is never exhausted before the inputs. -/
def processRounds (novels : List Novel) (inputs : List String) : List (Novel × List Novel) :=
  processRoundsFuel inputs.length novels inputs

/-- `reverse=True` sort key `lambda x: x["year"]`: stable descending order
by year. -/
def povSortLE (a b : Novel) : Prop := b.year ≤ a.year

instance : DecidableRel povSortLE := fun a b => inferInstanceAs (Decidable (b.year ≤ a.year))

/-- `all_novels.sort(key=lambda x: x["year"], reverse=True)`. -/
def sortByYearDesc (l : List Novel) : List Novel := List.insertionSort povSortLE l

/-- The pure core of the `process` command (cli.py lines 224-290): the trace
of (prompted record, saved snapshot) pairs it produces on a given persisted
list and a given sequence of user inputs. -/
def process (novels : List Novel) (inputs : List String) : List (Novel × List Novel) :=
  if novels.isEmpty then [] else processRounds (sortByYearDesc novels) inputs

/-! ### Specification-side predicates -/

/-- The spec's pov datatype: an optional enum of first, second, third. -/
def povValid (p : Option String) : Prop :=
  p = none ∨ p = some "first" ∨ p = some "second" ∨ p = some "third"

/-- The save discipline the spec ascribes to the annotator: each round
prompts for a record with no pov assigned, that record is the first
unprocessed one of the current collection, the saved snapshot is the whole
current collection with exactly that one record annotated, and the next
round starts from the saved snapshot. -/
def saveDiscipline : List Novel → List (Novel × List Novel) → Prop
  | _, [] => True
  | st, (pr, sv) :: rest =>
    povFalsy pr.pov = true ∧
    (∃ idx pv rd, findUnprocessedIdx st = some idx ∧ st[idx]? = some pr ∧
      (pv = "first" ∨ pv = "second" ∨ pv = "third") ∧
      sv = st.set idx (annotate pr pv rd)) ∧
    saveDiscipline sv rest

/-- A row whose year cell is present and contains `"retro"` (such a row is
skipped entirely by the parser). -/
def rowIsRetro (row : Row) (yearCol : Nat) : Bool :=
  match row.cells[yearCol]? with
  | none => false
  | some yc => containsSub (pyLower yc) "retro"

/-- A body row that yields no new year: its year cell is absent, or contains
`"retro"`, or its first whitespace token does not parse to a positive
integer.  (A present, non-retro cell with no token at all is excluded: there
the code raises `IndexError` instead.) -/
def yearCellNoParse (row : Row) (yearCol : Nat) : Bool :=
  match row.cells[yearCol]? with
  | none => true
  | some yc =>
    containsSub (pyLower yc) "retro" ||
      (match (pySplitWs yc).head? with
       | some tok => decide (parse_int tok ≤ 0)
       | none => false)


/-! ### Concrete instances used in counterexamples and witnesses -/

/-- A persisted record older than the default `--after` cutoff. -/
def exC2 : Novel :=
  { title := "The Dispossessed", award := "Hugo", year := 1975, pov := some "third", read := true }

/-- A persisted, fully annotated record. -/
def exC3 : Novel :=
  { title := "Hyperion", award := "Hugo", year := 1990, pov := some "first", read := true }

/-- A freshly scraped duplicate of `exC3` under the other award. -/
def newC3 : Novel :=
  { title := "Hyperion", award := "Nebula", year := 1990, pov := none, read := false }

/-- The merged record `scrape [exC3] [newC3] 1990` produces. -/
def outC3 : Novel :=
  { title := "Hyperion", award := "Hugo|Nebula", year := 1990, pov := some "first", read := false }

/-- A persisted record whose award is already a pipe-joined union. -/
def exC1 : Novel :=
  { title := "Dune", award := "Hugo|Nebula", year := 1966, pov := none, read := false }

/-- A freshly scraped single-label duplicate of `exC1`. -/
def newC1 : Novel :=
  { title := "Dune", award := "Hugo", year := 1966, pov := none, read := false }

/-- A header row with a `Year` column in first position. -/
def w6header : Row := { cells := ["Year", "Novel", "Author"], itags := [] }

/-- A body row with a parsable year and one title. -/
def w6row : Row := { cells := ["1991"], itags := ["Barrayar"] }

/-- The record scraped from `w6row`. -/
def w6rec : Novel := { title := "Barrayar", award := "Hugo", year := 1991, pov := none, read := false }

/-- A body row whose year cell is absent (row-spanned). -/
def w7row : Row := { cells := [], itags := ["Doomsday Book"] }

/-! ### Order lemmas for the sort keys -/

theorem cmpChars_nil_ne_gt (bs : List Char) : cmpChars [] bs ≠ Ordering.gt := by
  cases bs <;> simp [cmpChars]

theorem cmpChars_swap : ∀ as bs : List Char, cmpChars bs as = (cmpChars as bs).swap := by
  intro as
  induction as with
  | nil => intro bs; cases bs <;> simp [cmpChars, Ordering.swap]
  | cons a as ih =>
    intro bs
    cases bs with
    | nil => simp [cmpChars, Ordering.swap]
    | cons b bs =>
      simp only [cmpChars]
      rcases Nat.lt_trichotomy a.toNat b.toNat with h | h | h
      · simp [h, Nat.lt_asymm h, Ordering.swap]
      · simp [h, Nat.lt_irrefl, ih bs]
      · simp [h, Nat.lt_asymm h, Ordering.swap]

theorem cmpChars_le_trans : ∀ as bs cs : List Char,
    cmpChars as bs ≠ Ordering.gt → cmpChars bs cs ≠ Ordering.gt → cmpChars as cs ≠ Ordering.gt := by
  intro as
  induction as with
  | nil => intro bs cs _ _; exact cmpChars_nil_ne_gt cs
  | cons a as ih =>
    intro bs cs h1 h2
    cases bs with
    | nil => simp [cmpChars] at h1
    | cons b bs =>
      cases cs with
      | nil => simp [cmpChars] at h2
      | cons c cs =>
        simp only [cmpChars] at h1 h2 ⊢
        rcases Nat.lt_trichotomy a.toNat b.toNat with hab | hab | hab
        · rcases Nat.lt_trichotomy b.toNat c.toNat with hbc | hbc | hbc
          · have hac : a.toNat < c.toNat := by omega
            simp [hac]
          · have hac : a.toNat < c.toNat := by omega
            simp [hac]
          · simp [hbc, Nat.lt_asymm hbc] at h2
        · rcases Nat.lt_trichotomy b.toNat c.toNat with hbc | hbc | hbc
          · have hac : a.toNat < c.toNat := by omega
            simp [hac]
          · have hac : a.toNat = c.toNat := by omega
            simp only [hab, Nat.lt_irrefl, if_false, if_neg] at h1
            simp only [hbc, Nat.lt_irrefl, if_false, if_neg] at h2
            simp only [hac, Nat.lt_irrefl, if_false, if_neg]
            exact ih bs cs h1 h2
          · simp [hbc, Nat.lt_asymm hbc] at h2
        · simp [hab, Nat.lt_asymm hab] at h1

theorem pyStrLe_total (a b : String) : pyStrLe a b = true ∨ pyStrLe b a = true := by
  simp only [pyStrLe, decide_eq_true_eq]
  by_cases h : cmpChars a.data b.data = Ordering.gt
  · right
    rw [cmpChars_swap a.data b.data, h]
    simp [Ordering.swap]
  · left; exact h

theorem pyStrLe_trans (a b c : String) :
    pyStrLe a b = true → pyStrLe b c = true → pyStrLe a c = true := by
  simp only [pyStrLe, decide_eq_true_eq]
  exact cmpChars_le_trans a.data b.data c.data

theorem keyLeB_iff (a b : Novel) :
    keyLeB a b = true ↔ a.year < b.year ∨ (a.year = b.year ∧ pyStrLe a.title b.title = true) := by
  unfold keyLeB
  rcases Int.lt_trichotomy a.year b.year with h | h | h
  · simp [h]
  · have h1 : ¬ a.year < b.year := by omega
    have h2 : ¬ b.year < a.year := by omega
    simp [h, h1, h2]
  · have h1 : ¬ a.year < b.year := by omega
    have h2 : a.year ≠ b.year := by omega
    simp [h, h1, h2]

theorem keyLE_total (a b : Novel) : keyLE a b ∨ keyLE b a := by
  unfold keyLE
  rw [keyLeB_iff, keyLeB_iff]
  rcases Int.lt_trichotomy a.year b.year with h | h | h
  · left; exact Or.inl h
  · rcases pyStrLe_total a.title b.title with ht | ht
    · left; exact Or.inr ⟨h, ht⟩
    · right; exact Or.inr ⟨h.symm, ht⟩
  · right; exact Or.inl h

theorem keyLE_trans (a b c : Novel) : keyLE a b → keyLE b c → keyLE a c := by
  unfold keyLE
  rw [keyLeB_iff, keyLeB_iff, keyLeB_iff]
  rintro (h1 | ⟨h1, t1⟩) (h2 | ⟨h2, t2⟩)
  · exact Or.inl (by omega)
  · exact Or.inl (by omega)
  · exact Or.inl (by omega)
  · exact Or.inr ⟨by omega, pyStrLe_trans _ _ _ t1 t2⟩

instance : IsTotal Novel keyLE := ⟨keyLE_total⟩

instance : IsTrans Novel keyLE := ⟨keyLE_trans⟩

theorem mem_sortByYearTitle {x : Novel} {l : List Novel} : x ∈ sortByYearTitle l ↔ x ∈ l :=
  List.Perm.mem_iff (List.perm_insertionSort keyLE l)

theorem pairwise_sortByYearTitle {R : Novel → Novel → Prop} (hs : ∀ {x y : Novel}, R x y → R y x)
    {l : List Novel} (h : l.Pairwise R) : (sortByYearTitle l).Pairwise R :=
  ((List.perm_insertionSort keyLE l).pairwise_iff hs).mpr h

theorem sorted_sortByYearTitle (l : List Novel) : (sortByYearTitle l).Pairwise keyLE :=
  List.sorted_insertionSort keyLE l

/-! ### Dictionary lemmas -/

@[simp] theorem mapKeys_nil : mapKeys [] = [] := rfl

@[simp] theorem mapKeys_cons (p : (String × Int) × Novel) (rest : List ((String × Int) × Novel)) :
    mapKeys (p :: rest) = p.1 :: mapKeys rest := rfl

@[simp] theorem mapVals_nil : mapVals [] = [] := rfl

@[simp] theorem mapVals_cons (p : (String × Int) × Novel) (rest : List ((String × Int) × Novel)) :
    mapVals (p :: rest) = p.2 :: mapVals rest := rfl

theorem mapGet?_mapSet (m : List ((String × Int) × Novel)) (k k' : String × Int) (v : Novel) :
    mapGet? (mapSet m k v) k' = if k' = k then some v else mapGet? m k' := by
  induction m with
  | nil =>
    by_cases h : k' = k
    · subst h; simp [mapSet, mapGet?]
    · simp [mapSet, mapGet?, h, Ne.symm h]
  | cons p rest ih =>
    by_cases hpk : p.1 = k
    · by_cases h : k' = k
      · subst h; simp [mapSet, mapGet?, hpk]
      · simp [mapSet, mapGet?, hpk, h, Ne.symm h]
    · by_cases h : k' = p.1
      · have hk : ¬ (k' = k) := by rw [h]; exact hpk
        simp [mapSet, mapGet?, hpk, h.symm, hk]
      · simp [mapSet, mapGet?, hpk, Ne.symm h, ih]

theorem mapKeys_mem_mapSet {m : List ((String × Int) × Novel)} {k k' : String × Int} {v : Novel}
    (h : k' ∈ mapKeys (mapSet m k v)) : k' ∈ mapKeys m ∨ k' = k := by
  induction m with
  | nil => simp [mapSet] at h; simp [h]
  | cons p rest ih =>
    by_cases hpk : p.1 = k
    · simp [mapSet, hpk] at h
      rcases h with h | h
      · right; exact h
      · left; simp [hpk]; right; exact h
    · simp [mapSet, hpk] at h
      rcases h with h | h
      · left; simp [h]
      · rcases ih h with h2 | h2
        · left; simp; right; exact h2
        · right; exact h2

theorem nodup_mapKeys_mapSet {m : List ((String × Int) × Novel)} {k : String × Int} {v : Novel}
    (h : (mapKeys m).Nodup) : (mapKeys (mapSet m k v)).Nodup := by
  induction m with
  | nil => simp [mapSet]
  | cons p rest ih =>
    by_cases hpk : p.1 = k
    · simp [mapSet, hpk] at h ⊢
      refine ⟨fun hk => ?_, h.2⟩
      exact h.1 (hpk ▸ hk)
    · simp [mapSet, hpk] at h ⊢
      refine ⟨fun hmem => ?_, ih h.2⟩
      rcases mapKeys_mem_mapSet hmem with h2 | h2
      · exact h.1 h2
      · exact hpk h2

/-- Every binding's key is the `(title, year)` of its value. -/
def keyConsistent (m : List ((String × Int) × Novel)) : Prop := ∀ p ∈ m, p.1 = keyOf p.2

theorem keyConsistent_nil : keyConsistent [] := by intro p hp; cases hp

theorem keyConsistent_mapSet {m : List ((String × Int) × Novel)} {k : String × Int} {v : Novel}
    (h : keyConsistent m) (hv : k = keyOf v) : keyConsistent (mapSet m k v) := by
  induction m with
  | nil => intro p hp; simp [mapSet] at hp; simp [hp, hv]
  | cons p rest ih =>
    by_cases hpk : p.1 = k
    · intro q hq
      simp [mapSet, hpk] at hq
      rcases hq with hq | hq
      · simp [hq, hv]
      · exact h q (List.mem_cons_of_mem p hq)
    · intro q hq
      simp only [mapSet, hpk, if_false, if_neg hpk] at hq
      rcases List.mem_cons.mp hq with hq | hq
      · exact hq ▸ h p (List.mem_cons_self p rest)
      · exact ih (fun r hr => h r (List.mem_cons_of_mem p hr)) q hq

/-- All dict values satisfy a predicate. -/
def allVals (P : Novel → Prop) (m : List ((String × Int) × Novel)) : Prop := ∀ p ∈ m, P p.2

theorem allVals_nil (P : Novel → Prop) : allVals P [] := by intro p hp; cases hp

theorem allVals_mapSet {P : Novel → Prop} {m : List ((String × Int) × Novel)}
    {k : String × Int} {v : Novel} (h : allVals P m) (hv : P v) : allVals P (mapSet m k v) := by
  induction m with
  | nil => intro p hp; simp [mapSet] at hp; simp [hp, hv]
  | cons p rest ih =>
    by_cases hpk : p.1 = k
    · intro q hq
      simp [mapSet, hpk] at hq
      rcases hq with hq | hq
      · simp [hq, hv]
      · exact h q (List.mem_cons_of_mem p hq)
    · intro q hq
      simp only [mapSet, hpk, if_false, if_neg hpk] at hq
      rcases List.mem_cons.mp hq with hq | hq
      · exact hq ▸ h p (List.mem_cons_self p rest)
      · exact ih (fun r hr => h r (List.mem_cons_of_mem p hr)) q hq

theorem allVals_mapGet? {P : Novel → Prop} {m : List ((String × Int) × Novel)}
    {k : String × Int} {v : Novel} (h : allVals P m) (hg : mapGet? m k = some v) : P v := by
  induction m with
  | nil => simp [mapGet?] at hg
  | cons p rest ih =>
    by_cases hpk : p.1 = k
    · simp [mapGet?, hpk] at hg
      exact hg ▸ h p (List.mem_cons_self p rest)
    · simp only [mapGet?, hpk, if_neg hpk] at hg
      exact ih (fun r hr => h r (List.mem_cons_of_mem p hr)) hg

theorem mapGet?_mem_vals {m : List ((String × Int) × Novel)} {k : String × Int} {v : Novel}
    (hg : mapGet? m k = some v) : v ∈ mapVals m := by
  induction m with
  | nil => simp [mapGet?] at hg
  | cons p rest ih =>
    by_cases hpk : p.1 = k
    · simp [mapGet?, hpk] at hg
      simp [hg]
    · simp only [mapGet?, hpk, if_neg hpk] at hg
      simp [ih hg]

theorem keyConsistent_mapGet? {m : List ((String × Int) × Novel)} {k : String × Int} {v : Novel}
    (h : keyConsistent m) (hg : mapGet? m k = some v) : keyOf v = k := by
  induction m with
  | nil => simp [mapGet?] at hg
  | cons p rest ih =>
    by_cases hpk : p.1 = k
    · simp [mapGet?, hpk] at hg
      rw [← hg]
      exact (hpk ▸ h p (List.mem_cons_self p rest)).symm
    · simp only [mapGet?, hpk, if_neg hpk] at hg
      exact ih (fun r hr => h r (List.mem_cons_of_mem p hr)) hg

theorem pairwise_vals_of_nodup :
    ∀ m : List ((String × Int) × Novel), (mapKeys m).Nodup → keyConsistent m →
      (mapVals m).Pairwise (fun a b => keyOf a ≠ keyOf b) := by
  intro m
  induction m with
  | nil => intro _ _; simp
  | cons p rest ih =>
    intro hnd hkc
    simp only [mapVals_cons]
    refine List.Pairwise.cons ?_ (ih (by simp at hnd; exact hnd.2) (fun r hr => hkc r (List.mem_cons_of_mem p hr)))
    intro b hb
    rcases List.mem_map.mp hb with ⟨q, hq, hqb⟩
    have h1 : keyOf p.2 = p.1 := (hkc p (List.mem_cons_self p rest)).symm
    have h2 : keyOf b = q.1 := by rw [← hqb]; exact (hkc q (List.mem_cons_of_mem p hq)).symm
    intro he
    simp only [mapKeys_cons, List.nodup_cons] at hnd
    apply hnd.1
    rw [← h1, he, h2]
    exact List.mem_map.mpr ⟨q, hq, rfl⟩

theorem eq_of_mem_pairwise_key {l : List Novel}
    (h : l.Pairwise (fun a b => keyOf a ≠ keyOf b)) {a b : Novel}
    (ha : a ∈ l) (hb : b ∈ l) (hk : keyOf a = keyOf b) : a = b := by
  by_cases hab : a = b
  · exact hab
  · have hs : Symmetric (fun a b : Novel => keyOf a ≠ keyOf b) := fun x y h1 h2 => h1 h2.symm
    exact absurd hk (List.Pairwise.forall hs h ha hb hab)
/-! ### Merge-step lemmas -/

@[simp] theorem mergeAward_title (ex item1 : Novel) : (mergeAward ex item1).title = item1.title := by
  unfold mergeAward
  split <;> rfl

@[simp] theorem mergeAward_year (ex item1 : Novel) : (mergeAward ex item1).year = item1.year := by
  unfold mergeAward
  split <;> rfl

@[simp] theorem mergeAward_read (ex item1 : Novel) : (mergeAward ex item1).read = item1.read := by
  unfold mergeAward
  split <;> rfl

@[simp] theorem mergeAward_pov (ex item1 : Novel) : (mergeAward ex item1).pov = item1.pov := by
  unfold mergeAward
  split <;> rfl

@[simp] theorem mergeItem_title (ex item : Novel) : (mergeItem ex item).title = item.title := by
  unfold mergeItem
  split <;> simp

@[simp] theorem mergeItem_year (ex item : Novel) : (mergeItem ex item).year = item.year := by
  unfold mergeItem
  split <;> simp

@[simp] theorem mergeItem_read (ex item : Novel) : (mergeItem ex item).read = item.read := by
  unfold mergeItem
  split <;> simp

@[simp] theorem keyOf_mergeItem (ex item : Novel) : keyOf (mergeItem ex item) = keyOf item := by
  simp [keyOf]

theorem mergeItem_pov (ex item : Novel) :
    (mergeItem ex item).pov = if ex.pov.isSome then ex.pov else item.pov := by
  unfold mergeItem
  split <;> simp_all

theorem mergeItem_pov_of_none {ex item : Novel} (h : item.pov = none) :
    (mergeItem ex item).pov = ex.pov := by
  rw [mergeItem_pov]
  cases hp : ex.pov <;> simp [hp, h]

theorem mapGet?_mergeStep_ne {m : List ((String × Int) × Novel)} {item : Novel}
    {k : String × Int} (h : k ≠ keyOf item) : mapGet? (mergeStep m item) k = mapGet? m k := by
  unfold mergeStep
  cases hg : mapGet? m (keyOf item) with
  | none => rw [mapGet?_mapSet]; simp [h]
  | some ex => rw [mapGet?_mapSet]; simp [h]

theorem mapGet?_mergeStep_eq (m : List ((String × Int) × Novel)) (item : Novel) :
    mapGet? (mergeStep m item) (keyOf item) =
      some (match mapGet? m (keyOf item) with
            | none => item
            | some ex => mergeItem ex item) := by
  unfold mergeStep
  cases hg : mapGet? m (keyOf item) with
  | none => rw [mapGet?_mapSet]; simp
  | some ex => rw [mapGet?_mapSet]; simp

theorem nodup_mergeStep {m : List ((String × Int) × Novel)} {item : Novel}
    (h : (mapKeys m).Nodup) : (mapKeys (mergeStep m item)).Nodup := by
  unfold mergeStep
  cases mapGet? m (keyOf item) <;> exact nodup_mapKeys_mapSet h

theorem keyConsistent_mergeStep {m : List ((String × Int) × Novel)} {item : Novel}
    (h : keyConsistent m) : keyConsistent (mergeStep m item) := by
  unfold mergeStep
  cases mapGet? m (keyOf item) with
  | none => exact keyConsistent_mapSet h rfl
  | some ex => exact keyConsistent_mapSet h (keyOf_mergeItem ex item).symm

theorem allVals_mergeStep {P : Novel → Prop} {m : List ((String × Int) × Novel)} {item : Novel}
    (hmerge : ∀ ex it : Novel, P ex → P it → P (mergeItem ex it))
    (h : allVals P m) (hit : P item) : allVals P (mergeStep m item) := by
  unfold mergeStep
  cases hg : mapGet? m (keyOf item) with
  | none => exact allVals_mapSet h hit
  | some ex => exact allVals_mapSet h (hmerge ex item (allVals_mapGet? h hg) hit)

/-! ### Fold lemmas for the two merge loops of `scrape` -/

theorem foldl_mergeStep_nodup :
    ∀ (l : List Novel) (m : List ((String × Int) × Novel)),
      (mapKeys m).Nodup → (mapKeys (l.foldl mergeStep m)).Nodup := by
  intro l
  induction l with
  | nil => intro m h; exact h
  | cons it rest ih => intro m h; exact ih _ (nodup_mergeStep h)

theorem foldl_mergeStep_keyConsistent :
    ∀ (l : List Novel) (m : List ((String × Int) × Novel)),
      keyConsistent m → keyConsistent (l.foldl mergeStep m) := by
  intro l
  induction l with
  | nil => intro m h; exact h
  | cons it rest ih => intro m h; exact ih _ (keyConsistent_mergeStep h)

theorem foldl_mergeStep_allVals {P : Novel → Prop}
    (hmerge : ∀ ex it : Novel, P ex → P it → P (mergeItem ex it)) :
    ∀ (l : List Novel) (m : List ((String × Int) × Novel)),
      allVals P m → (∀ it ∈ l, P it) → allVals P (l.foldl mergeStep m) := by
  intro l
  induction l with
  | nil => intro m h _; exact h
  | cons it rest ih =>
    intro m h hl
    exact ih _ (allVals_mergeStep hmerge h (hl it (List.mem_cons_self it rest)))
      (fun x hx => hl x (List.mem_cons_of_mem it hx))

theorem foldl_mergeStep_key :
    ∀ (l : List Novel) (m : List ((String × Int) × Novel)) (k : String × Int),
      (∃ v, mapGet? m k = some v ∧ keyOf v = k) →
      ∃ v1, mapGet? (l.foldl mergeStep m) k = some v1 ∧ keyOf v1 = k := by
  intro l
  induction l with
  | nil => intro m k h; exact h
  | cons it rest ih =>
    intro m k h
    rcases h with ⟨v, hg, hk⟩
    by_cases hki : k = keyOf it
    · subst hki
      refine ih _ _ ⟨mergeItem v it, ?_, by simp⟩
      rw [mapGet?_mergeStep_eq, hg]
    · exact ih _ _ ⟨v, by rw [mapGet?_mergeStep_ne hki]; exact hg, hk⟩

theorem foldl_mergeStep_pov :
    ∀ (l : List Novel) (m : List ((String × Int) × Novel)) (k : String × Int) (v : Novel)
      (w : String), mapGet? m k = some v → v.pov = some w →
      ∃ v1, mapGet? (l.foldl mergeStep m) k = some v1 ∧ v1.pov = some w := by
  intro l
  induction l with
  | nil => intro m k v w hg hp; exact ⟨v, hg, hp⟩
  | cons it rest ih =>
    intro m k v w hg hp
    by_cases hki : k = keyOf it
    · subst hki
      refine ih _ _ (mergeItem v it) w ?_ ?_
      · rw [mapGet?_mergeStep_eq, hg]
      · rw [mergeItem_pov]
        simp [hp]
    · exact ih _ _ v w (by rw [mapGet?_mergeStep_ne hki]; exact hg) hp

theorem foldl_mergeStep_collected :
    ∀ (l : List Novel) (m : List ((String × Int) × Novel)) (k : String × Int) (v : Novel),
      (∀ it ∈ l, it.pov = none ∧ it.read = false) →
      mapGet? m k = some v →
      ∃ v1, mapGet? (l.foldl mergeStep m) k = some v1 ∧ v1.pov = v.pov ∧
        (((∃ it ∈ l, keyOf it = k) ∧ v1.read = false) ∨
         ((¬ ∃ it ∈ l, keyOf it = k) ∧ v1 = v)) := by
  intro l
  induction l with
  | nil =>
    intro m k v _ hg
    exact ⟨v, hg, rfl, Or.inr ⟨by simp, rfl⟩⟩
  | cons it rest ih =>
    intro m k v hl hg
    have hit : it.pov = none ∧ it.read = false := hl it (List.mem_cons_self it rest)
    have hrest : ∀ x ∈ rest, x.pov = none ∧ x.read = false :=
      fun x hx => hl x (List.mem_cons_of_mem it hx)
    by_cases hki : k = keyOf it
    · subst hki
      have hg2 : mapGet? (mergeStep m it) (keyOf it) = some (mergeItem v it) := by
        rw [mapGet?_mergeStep_eq, hg]
      rcases ih (mergeStep m it) (keyOf it) (mergeItem v it) hrest hg2 with
        ⟨v1, hvg, hvp, hcase⟩
      refine ⟨v1, hvg, ?_, Or.inl ⟨⟨it, List.mem_cons_self it rest, rfl⟩, ?_⟩⟩
      · rw [hvp, mergeItem_pov_of_none hit.1]
      · rcases hcase with ⟨_, hread⟩ | ⟨_, hv1⟩
        · exact hread
        · rw [hv1, mergeItem_read, hit.2]
    · have hg2 : mapGet? (mergeStep m it) k = some v := by
        rw [mapGet?_mergeStep_ne hki]; exact hg
      rcases ih (mergeStep m it) k v hrest hg2 with ⟨v1, hvg, hvp, hcase⟩
      refine ⟨v1, hvg, hvp, ?_⟩
      rcases hcase with ⟨hmem, hread⟩ | ⟨hnmem, hv1⟩
      · rcases hmem with ⟨x, hx, hxk⟩
        exact Or.inl ⟨⟨x, List.mem_cons_of_mem it hx, hxk⟩, hread⟩
      · refine Or.inr ⟨?_, hv1⟩
        rintro ⟨x, hx, hxk⟩
        rcases List.mem_cons.mp hx with hx | hx
        · rw [hx] at hxk
          exact hki hxk.symm
        · exact hnmem ⟨x, hx, hxk⟩

/-! ### Fold lemmas for the dict-building loop of `scrape` -/

theorem mapGet?_insStep_ne {m : List ((String × Int) × Novel)} {it : Novel}
    {k : String × Int} (h : k ≠ keyOf it) : mapGet? (insStep m it) k = mapGet? m k := by
  unfold insStep
  rw [mapGet?_mapSet]
  simp [h]

theorem mapGet?_insStep_eq (m : List ((String × Int) × Novel)) (it : Novel) :
    mapGet? (insStep m it) (keyOf it) = some it := by
  unfold insStep
  rw [mapGet?_mapSet]
  simp

theorem foldl_insStep_nodup :
    ∀ (l : List Novel) (m : List ((String × Int) × Novel)),
      (mapKeys m).Nodup → (mapKeys (l.foldl insStep m)).Nodup := by
  intro l
  induction l with
  | nil => intro m h; exact h
  | cons it rest ih => intro m h; exact ih _ (nodup_mapKeys_mapSet h)

theorem foldl_insStep_keyConsistent :
    ∀ (l : List Novel) (m : List ((String × Int) × Novel)),
      keyConsistent m → keyConsistent (l.foldl insStep m) := by
  intro l
  induction l with
  | nil => intro m h; exact h
  | cons it rest ih => intro m h; exact ih _ (keyConsistent_mapSet h rfl)

theorem foldl_insStep_allVals {P : Novel → Prop} :
    ∀ (l : List Novel) (m : List ((String × Int) × Novel)),
      allVals P m → (∀ it ∈ l, P it) → allVals P (l.foldl insStep m) := by
  intro l
  induction l with
  | nil => intro m h _; exact h
  | cons it rest ih =>
    intro m h hl
    exact ih _ (allVals_mapSet h (hl it (List.mem_cons_self it rest)))
      (fun x hx => hl x (List.mem_cons_of_mem it hx))

theorem foldl_insStep_key :
    ∀ (l : List Novel) (m : List ((String × Int) × Novel)) (k : String × Int),
      (∃ v, mapGet? m k = some v ∧ keyOf v = k) →
      ∃ v1, mapGet? (l.foldl insStep m) k = some v1 ∧ keyOf v1 = k := by
  intro l
  induction l with
  | nil => intro m k h; exact h
  | cons it rest ih =>
    intro m k h
    rcases h with ⟨v, hg, hk⟩
    by_cases hki : k = keyOf it
    · subst hki
      exact ih _ _ ⟨it, mapGet?_insStep_eq m it, rfl⟩
    · exact ih _ _ ⟨v, by rw [mapGet?_insStep_ne hki]; exact hg, hk⟩

theorem foldl_insStep_mem :
    ∀ (l : List Novel) (m : List ((String × Int) × Novel)) (r : Novel), r ∈ l →
      ∃ v, mapGet? (l.foldl insStep m) (keyOf r) = some v ∧ keyOf v = keyOf r := by
  intro l
  induction l with
  | nil => intro m r hr; cases hr
  | cons it rest ih =>
    intro m r hr
    rcases List.mem_cons.mp hr with hr | hr
    · subst hr
      exact foldl_insStep_key rest _ (keyOf r) ⟨r, mapGet?_insStep_eq m r, rfl⟩
    · exact ih _ r hr

theorem foldl_insStep_untouched :
    ∀ (l : List Novel) (m : List ((String × Int) × Novel)) (k : String × Int),
      (∀ it ∈ l, keyOf it ≠ k) → mapGet? (l.foldl insStep m) k = mapGet? m k := by
  intro l
  induction l with
  | nil => intro m k _; rfl
  | cons it rest ih =>
    intro m k h
    rw [List.foldl_cons, ih _ _ (fun x hx => h x (List.mem_cons_of_mem it hx)),
      mapGet?_insStep_ne (fun he => h it (List.mem_cons_self it rest) he.symm)]

theorem foldl_insStep_unique :
    ∀ (l : List Novel) (m : List ((String × Int) × Novel)) (r : Novel),
      l.Pairwise (fun a b => keyOf a ≠ keyOf b) → r ∈ l →
      mapGet? (l.foldl insStep m) (keyOf r) = some r := by
  intro l
  induction l with
  | nil => intro m r _ hr; cases hr
  | cons it rest ih =>
    intro m r hp hr
    rcases List.pairwise_cons.mp hp with ⟨hhead, htail⟩
    rcases List.mem_cons.mp hr with hr | hr
    · subst hr
      rw [List.foldl_cons,
        foldl_insStep_untouched rest _ (keyOf r) (fun x hx => (hhead x hx).symm)]
      exact mapGet?_insStep_eq m r
    · exact ih _ r htail hr
/-! ### Merge-level auxiliary lemmas for the scrape command -/

theorem scrape_pairwise_key_aux (existing combined_new : List Novel) (after : Int) :
    (scrape existing combined_new after).Pairwise (fun a b => keyOf a ≠ keyOf b) := by
  unfold scrape
  have hs : ∀ {x y : Novel}, keyOf x ≠ keyOf y → keyOf y ≠ keyOf x := fun h1 h2 => h1 h2.symm
  apply pairwise_sortByYearTitle hs
  apply pairwise_vals_of_nodup
  · exact foldl_mergeStep_nodup _ _ (foldl_insStep_nodup _ _ (by simp))
  · exact foldl_mergeStep_keyConsistent _ _ (foldl_insStep_keyConsistent _ _ keyConsistent_nil)

theorem scrape_year_lb_aux (existing combined_new : List Novel) (after : Int) :
    ∀ r ∈ scrape existing combined_new after, after ≤ r.year := by
  unfold scrape
  intro r hr
  rw [mem_sortByYearTitle] at hr
  rcases List.mem_map.mp hr with ⟨p, hp, hpv⟩
  have hmerge : ∀ ex it : Novel, after ≤ ex.year → after ≤ it.year →
      after ≤ (mergeItem ex it).year := fun ex it hex hit => by simpa using hit
  have hall0 : allVals (fun n => after ≤ n.year)
      ((existing.filter (fun n => after ≤ n.year)).foldl insStep []) :=
    foldl_insStep_allVals _ _ (allVals_nil _)
      (fun it hit => of_decide_eq_true (List.mem_filter.mp hit).2)
  have hall : allVals (fun n => after ≤ n.year)
      ((combined_new.filter (fun n => after ≤ n.year)).foldl mergeStep
        ((existing.filter (fun n => after ≤ n.year)).foldl insStep [])) :=
    foldl_mergeStep_allVals hmerge _ _ hall0
      (fun it hit => of_decide_eq_true (List.mem_filter.mp hit).2)
  rw [← hpv]
  exact hall p hp

theorem scrape_keeps_filtered_aux (existing combined_new : List Novel) (after : Int) (r : Novel)
    (hr : r ∈ existing) (hy : after ≤ r.year) :
    ∃ r', r' ∈ scrape existing combined_new after ∧ keyOf r' = keyOf r := by
  unfold scrape
  have hrf : r ∈ existing.filter (fun n => after ≤ n.year) :=
    List.mem_filter.mpr ⟨hr, decide_eq_true hy⟩
  rcases foldl_insStep_mem _ [] r hrf with ⟨v, hv, hk⟩
  rcases foldl_mergeStep_key (combined_new.filter (fun n => after ≤ n.year)) _ (keyOf r)
    ⟨v, hv, hk⟩ with ⟨v1, hv1, hk1⟩
  exact ⟨v1, mem_sortByYearTitle.mpr (mapGet?_mem_vals hv1), hk1⟩

/-- The value stored at the key of a surviving persisted record after the
whole merge pipeline, together with its membership in the final map. -/
theorem scrape_mapGet_membership_aux (existing combined_new : List Novel) (after : Int)
    {v1 : Novel}
    (hv1 : mapGet? ((combined_new.filter (fun n => after ≤ n.year)).foldl mergeStep
      ((existing.filter (fun n => after ≤ n.year)).foldl insStep [])) (keyOf v1) = some v1) :
    v1 ∈ scrape existing combined_new after := by
  unfold scrape
  exact mem_sortByYearTitle.mpr (mapGet?_mem_vals hv1)

/-! ### C1, C2, C3, C4, C5, C10 -/

/-- C1 (exhibiting the code bug): merging a persisted record whose award is
already the pipe-joined union `"Hugo|Nebula"` with a newly scraped
single-label `"Hugo"` record of the same `(title, year)` key does not produce
the sorted, deduplicated union `"Hugo|Nebula"`: the scrape merge joins the
two whole strings and saves the award `"Hugo|Hugo|Nebula"`, which duplicates
the label `"Hugo"`. -/
theorem scrape_award_join_duplicates :
    (scrape [exC1] [newC1] 1960).map Novel.award = ["Hugo|Hugo|Nebula"] := by decide

/-- C2 (counterexample): a persisted record with `year < after` is deleted by
the scrape merge: with `--after` at its default 1990, the 1975 record `exC2`
is absent from the saved list (which is empty), so no record with its
`(title, year)` key survives. -/
theorem scrape_after_filter_deletes :
    exC2.year = 1975 ∧ scrape [exC2] [] 1990 = [] ∧
      (∀ r' ∈ scrape [exC2] [] 1990, keyOf r' ≠ keyOf exC2) := by decide

/-- C2 (amended): records are never deleted by the merge itself, but the
scrape command first filters the previously persisted list by
`year >= after`; every previously persisted record whose year is at least
the `--after` value keeps a record with its `(title, year)` key in the saved
collection. -/
theorem scrape_keeps_records_after_cutoff (existing combined_new : List Novel) (after : Int)
    (r : Novel) (hr : r ∈ existing) (hy : after ≤ r.year) :
    ∃ r', r' ∈ scrape existing combined_new after ∧ keyOf r' = keyOf r :=
  scrape_keeps_filtered_aux existing combined_new after r hr hy

/-- Witness for C2: the annotated 1990 record `exC3` survives a merge with a
newly collected duplicate. -/
theorem scrape_keeps_records_after_cutoff_witness :
    ∃ r', r' ∈ scrape [exC3] [newC3] 1990 ∧ keyOf r' = keyOf exC3 :=
  scrape_keeps_records_after_cutoff [exC3] [newC3] 1990 exC3 (by decide) (by decide)

/-- C3 (counterexample): the merge does not keep the persisted record's
`read` value: `exC3` has `read = true`, its key matches the newly collected
`newC3`, and the merged record is saved with `read = false`. -/
theorem scrape_merge_drops_read :
    exC3.read = true ∧ keyOf newC3 = keyOf exC3 ∧
      (scrape [exC3] [newC3] 1990).map Novel.read = [false] := by decide

/-- C3 (amended): for a previously persisted record (in a collection with
unique keys) whose `(title, year)` key matches a newly collected entry, the
merged record for that key keeps the persisted record's pov value, but its
read value is reset to the newly collected entry's `read = false`. -/
theorem scrape_merge_keeps_pov_resets_read (existing combined_new : List Novel) (after : Int)
    (r n : Novel)
    (hu : existing.Pairwise (fun a b => keyOf a ≠ keyOf b))
    (hr : r ∈ existing) (hy : after ≤ r.year)
    (hn : n ∈ combined_new) (hkey : keyOf n = keyOf r)
    (hcol : ∀ m ∈ combined_new, m.pov = none ∧ m.read = false) :
    ∀ r' ∈ scrape existing combined_new after, keyOf r' = keyOf r →
      r'.pov = r.pov ∧ r'.read = false := by
  intro r' hr' hk'
  have huf : (existing.filter (fun n => after ≤ n.year)).Pairwise
      (fun a b => keyOf a ≠ keyOf b) :=
    List.Pairwise.sublist (List.filter_sublist existing) hu
  have hrf : r ∈ existing.filter (fun n => after ≤ n.year) :=
    List.mem_filter.mpr ⟨hr, decide_eq_true hy⟩
  have hm0 : mapGet? ((existing.filter (fun n => after ≤ n.year)).foldl insStep []) (keyOf r)
      = some r := foldl_insStep_unique _ [] r huf hrf
  have hny : n.year = r.year := congrArg Prod.snd hkey
  have hnf : n ∈ combined_new.filter (fun n => after ≤ n.year) :=
    List.mem_filter.mpr ⟨hn, decide_eq_true (by rw [hny]; exact hy)⟩
  have hcolF : ∀ it ∈ combined_new.filter (fun n => after ≤ n.year),
      it.pov = none ∧ it.read = false :=
    fun it hit => hcol it (List.mem_filter.mp hit).1
  rcases foldl_mergeStep_collected (combined_new.filter (fun n => after ≤ n.year)) _
    (keyOf r) r hcolF hm0 with ⟨v1, hv1, hpov, hcase⟩
  have hread : v1.read = false := by
    rcases hcase with ⟨_, h⟩ | ⟨hnm, _⟩
    · exact h
    · exact absurd ⟨n, hnf, hkey⟩ hnm
  have hk1 : keyOf v1 = keyOf r := by
    apply keyConsistent_mapGet? _ hv1
    exact foldl_mergeStep_keyConsistent _ _ (foldl_insStep_keyConsistent _ _ keyConsistent_nil)
  have hv1mem : v1 ∈ scrape existing combined_new after := by
    apply scrape_mapGet_membership_aux existing combined_new after
    rw [hk1]
    exact hv1
  have : r' = v1 :=
    eq_of_mem_pairwise_key (scrape_pairwise_key_aux existing combined_new after) hr' hv1mem
      (by rw [hk', hk1])
  rw [this]
  exact ⟨hpov, hread⟩

/-- Witness for C3: merging the annotated `exC3` with the newly collected
`newC3` keeps `pov = some "first"` and resets `read` to `false` in the saved
record `outC3`. -/
theorem scrape_merge_keeps_pov_resets_read_witness :
    outC3.pov = exC3.pov ∧ outC3.read = false :=
  scrape_merge_keeps_pov_resets_read [exC3] [newC3] 1990 exC3 newC3 (by decide) (by decide)
    (by decide) (by decide) (by decide) (by decide) outC3 (by decide) (by decide)

/-- C4: `(title, year)` uniquely identifies a record in the saved collection:
for every combination of newly collected entries and previously persisted
list, any two records at distinct positions of the list the scrape command
saves have different `(title, year)` keys. -/
theorem scrape_unique_keys (existing combined_new : List Novel) (after : Int) :
    (scrape existing combined_new after).Pairwise (fun a b => keyOf a ≠ keyOf b) :=
  scrape_pairwise_key_aux existing combined_new after

/-- C5: an existing non-null pov is never overwritten by a null value during
the merge: for every previously persisted record (in a collection with
unique keys) with `pov = some w` whose key matches a newly collected entry,
every saved record with that key still has `pov = some w`. -/
theorem scrape_never_nulls_pov (existing combined_new : List Novel) (after : Int)
    (r n : Novel) (w : String)
    (hu : existing.Pairwise (fun a b => keyOf a ≠ keyOf b))
    (hr : r ∈ existing) (hpov : r.pov = some w)
    (hn : n ∈ combined_new) (hkey : keyOf n = keyOf r) :
    ∀ r' ∈ scrape existing combined_new after, keyOf r' = keyOf r → r'.pov = some w := by
  intro r' hr' hk'
  by_cases hy : after ≤ r.year
  · have huf : (existing.filter (fun n => after ≤ n.year)).Pairwise
        (fun a b => keyOf a ≠ keyOf b) :=
      List.Pairwise.sublist (List.filter_sublist existing) hu
    have hrf : r ∈ existing.filter (fun n => after ≤ n.year) :=
      List.mem_filter.mpr ⟨hr, decide_eq_true hy⟩
    have hm0 : mapGet? ((existing.filter (fun n => after ≤ n.year)).foldl insStep []) (keyOf r)
        = some r := foldl_insStep_unique _ [] r huf hrf
    rcases foldl_mergeStep_pov (combined_new.filter (fun n => after ≤ n.year)) _
      (keyOf r) r w hm0 hpov with ⟨v1, hv1, hvp⟩
    have hk1 : keyOf v1 = keyOf r := by
      apply keyConsistent_mapGet? _ hv1
      exact foldl_mergeStep_keyConsistent _ _ (foldl_insStep_keyConsistent _ _ keyConsistent_nil)
    have hv1mem : v1 ∈ scrape existing combined_new after := by
      apply scrape_mapGet_membership_aux existing combined_new after
      rw [hk1]
      exact hv1
    have : r' = v1 :=
      eq_of_mem_pairwise_key (scrape_pairwise_key_aux existing combined_new after) hr' hv1mem
        (by rw [hk', hk1])
    rw [this]
    exact hvp
  · exfalso
    have h1 : after ≤ r'.year := scrape_year_lb_aux existing combined_new after r' hr'
    have h2 : r'.year = r.year := congrArg Prod.snd hk'
    omega

/-- Witness for C5: the persisted pov `some "first"` of `exC3` survives the
merge with `newC3` into the saved record `outC3`. -/
theorem scrape_never_nulls_pov_witness : outC3.pov = some "first" :=
  scrape_never_nulls_pov [exC3] [newC3] 1990 exC3 newC3 "first" (by decide) (by decide)
    (by decide) (by decide) (by decide) outC3 (by decide) (by decide)

/-- C10: the list the scrape command saves is sorted ascending by
`(year, title)`, every saved record has `year >= after`, and the default of
the `--after` option is 1990. -/
theorem scrape_sorted_and_bounded (existing combined_new : List Novel) (after : Int) :
    (scrape existing combined_new after).Pairwise keyLE ∧
      (∀ r ∈ scrape existing combined_new after, after ≤ r.year) ∧
      DEFAULT_AFTER = 1990 := by
  refine ⟨?_, scrape_year_lb_aux existing combined_new after, rfl⟩
  unfold scrape
  exact sorted_sortByYearTitle _

/-! ### Collector lemmas -/

theorem withNovels_ok {recs : List Novel} {e : Except String (List Novel)} {out : List Novel}
    (h : withNovels recs e = .ok out) : ∃ out2, e = .ok out2 ∧ out = recs ++ out2 := by
  cases e with
  | ok o =>
    simp only [withNovels] at h
    injection h with h2
    exact ⟨o, rfl, h2.symm⟩
  | error e => simp [withNovels] at h

theorem mkNovels_shape {award : String} {year : Int} {itags : List String} {r : Novel}
    (hr : r ∈ mkNovels award year itags) :
    r.award = award ∧ r.title ≠ "" ∧ r.pov = none ∧ r.read = false ∧ r.year = year := by
  unfold mkNovels at hr
  rcases List.mem_map.mp hr with ⟨t, ht, rfl⟩
  have hne : t ≠ "" := of_decide_eq_true (List.mem_filter.mp ht).2
  exact ⟨rfl, hne, rfl, rfl, rfl⟩

theorem scrapeRows_shape (award : String) (yearCol : Nat) :
    ∀ (rows : List Row) (cy : Int) (out : List Novel),
      scrapeRows award yearCol cy rows = .ok out →
      ∀ r ∈ out, r.award = award ∧ r.title ≠ "" ∧ r.pov = none ∧ r.read = false := by
  intro rows
  induction rows with
  | nil =>
    intro cy out h r hr
    simp only [scrapeRows] at h
    injection h with h2
    subst h2
    cases hr
  | cons row rest ih =>
    intro cy out h r hr
    simp only [scrapeRows] at h
    split at h
    · split at h
      · exact ih cy out h r hr
      · split at h
        · exact absurd h (by simp)
        · split at h <;> split at h <;>
            first
              | exact ih _ out h r hr
              | (rcases withNovels_ok h with ⟨out2, hrest, hout⟩
                 subst hout
                 rcases List.mem_append.mp hr with hr2 | hr2
                 · have hs := mkNovels_shape hr2
                   exact ⟨hs.1, hs.2.1, hs.2.2.1, hs.2.2.2.1⟩
                 · exact ih _ out2 hrest r hr2)
    · split at h
      · exact ih cy out h r hr
      · rcases withNovels_ok h with ⟨out2, hrest, hout⟩
        subst hout
        rcases List.mem_append.mp hr with hr2 | hr2
        · have hs := mkNovels_shape hr2
          exact ⟨hs.1, hs.2.1, hs.2.2.1, hs.2.2.2.1⟩
        · exact ih cy out2 hrest r hr2

theorem scrapeTable_shape (award : String) :
    ∀ (t : List Row) (out : List Novel), scrapeTable award t = .ok out →
      ∀ r ∈ out, r.award = award ∧ r.title ≠ "" ∧ r.pov = none ∧ r.read = false := by
  intro t out h r hr
  cases t with
  | nil =>
    simp only [scrapeTable] at h
    injection h with h2
    subst h2
    cases hr
  | cons header body =>
    simp only [scrapeTable] at h
    split at h
    · injection h with h2
      subst h2
      cases hr
    · split at h
      · injection h with h2
        subst h2
        cases hr
      · exact scrapeRows_shape award _ body 0 out h r hr

theorem scrape_award_novels_shape_aux :
    ∀ (tables : List (List Row)) (award : String) (out : List Novel),
      scrape_award_novels tables award = .ok out →
      ∀ r ∈ out, r.award = award ∧ r.title ≠ "" ∧ r.pov = none ∧ r.read = false := by
  intro tables
  induction tables with
  | nil =>
    intro award out h r hr
    simp only [scrape_award_novels] at h
    injection h with h2
    subst h2
    cases hr
  | cons t ts ih =>
    intro award out h r hr
    simp only [scrape_award_novels] at h
    cases htab : scrapeTable award t with
    | error e => rw [htab] at h; simp at h
    | ok recs =>
      rw [htab] at h
      have h2 : withNovels recs (scrape_award_novels ts award) = .ok out := h
      rcases withNovels_ok h2 with ⟨out2, hrest, hout⟩
      subst hout
      rcases List.mem_append.mp hr with hr2 | hr2
      · exact scrapeTable_shape award t recs htab r hr2
      · exact ih award out2 hrest r hr2

/-! ### C6 and C7 -/

/-- C6: every record in the flat list successfully returned by
`scrape_award_novels(url, award_name)` has its award equal to the
`award_name` argument, a nonempty title, an (integer) year, a null pov and
`read = false`.  (The year field is an integer by the type of `Novel`.) -/
theorem scrape_award_novels_shape (tables : List (List Row)) (award_name : String)
    (out : List Novel) (hok : scrape_award_novels tables award_name = .ok out) :
    ∀ r ∈ out, r.award = award_name ∧ r.title ≠ "" ∧ r.pov = none ∧ r.read = false :=
  scrape_award_novels_shape_aux tables award_name out hok

/-- Witness for C6: scraping a one-table page with a `Year` header and one
body row yields the record `w6rec`, which has all the stated fields. -/
theorem scrape_award_novels_shape_witness :
    w6rec.award = "Hugo" ∧ w6rec.title ≠ "" ∧ w6rec.pov = none ∧ w6rec.read = false :=
  scrape_award_novels_shape [[w6header, w6row]] "Hugo" [w6rec] rfl w6rec (by decide)

/-- C7: row-span carry-forward of the year value.  For a body row whose year
cell is absent or whose present cell yields no new positive year (it
contains `retro`, or its first whitespace token does not parse to a positive
integer): a retro row is skipped; with no previously parsed year
(`current_year = 0`) the row yields no records; and with a previously parsed
year `cy ≠ 0` the row's records are exactly `mkNovels` at the carried year
`cy`, prepended to the scrape of the remaining rows. -/
theorem scrapeRows_year_carry_forward (award : String) (yearCol : Nat) (cy : Int)
    (row : Row) (rest : List Row) (h : yearCellNoParse row yearCol = true) :
    (rowIsRetro row yearCol = true →
      scrapeRows award yearCol cy (row :: rest) = scrapeRows award yearCol cy rest) ∧
    (rowIsRetro row yearCol = false → cy = 0 →
      scrapeRows award yearCol cy (row :: rest) = scrapeRows award yearCol cy rest) ∧
    (rowIsRetro row yearCol = false → cy ≠ 0 →
      scrapeRows award yearCol cy (row :: rest) =
        withNovels (mkNovels award cy row.itags) (scrapeRows award yearCol cy rest)) := by
  unfold yearCellNoParse at h
  cases hyc : row.cells[yearCol]? with
  | none =>
    refine ⟨fun hf => ?_, fun _ hcy => ?_, fun _ hcy => ?_⟩
    · simp [rowIsRetro, hyc] at hf
    · simp [scrapeRows, hyc, hcy]
    · simp [scrapeRows, hyc, hcy]
  | some yc =>
    have h2 : (containsSub (pyLower yc) "retro" ||
        match (pySplitWs yc).head? with
        | some tok => decide (parse_int tok ≤ 0)
        | none => false) = true := by
      rw [hyc] at h
      exact h
    by_cases hretro : containsSub (pyLower yc) "retro" = true
    · refine ⟨fun _ => ?_, fun hf _ => ?_, fun hf _ => ?_⟩
      · simp [scrapeRows, hyc, hretro]
      · simp [rowIsRetro, hyc, hretro] at hf
      · simp [rowIsRetro, hyc, hretro] at hf
    · have hretro2 : containsSub (pyLower yc) "retro" = false := by
        cases hb : containsSub (pyLower yc) "retro"
        · rfl
        · exact absurd hb hretro
      rw [hretro2, Bool.false_or] at h2
      cases htok : (pySplitWs yc).head? with
      | none => rw [htok] at h2; simp at h2
      | some tok =>
        rw [htok] at h2
        have hple : parse_int tok ≤ 0 := of_decide_eq_true h2
        have hnpos : ¬ parse_int tok > 0 := by omega
        refine ⟨fun hf => ?_, fun _ hcy => ?_, fun _ hcy => ?_⟩
        · simp [rowIsRetro, hyc, hretro2] at hf
        · simp [scrapeRows, hyc, hretro2, htok, hnpos, hcy]
        · simp [scrapeRows, hyc, hretro2, htok, hnpos, hcy]

/-- Witness for C7: a row with an absent year cell after an already parsed
year 1992 contributes its titles at year 1992. -/
theorem scrapeRows_year_carry_forward_witness :
    scrapeRows "Hugo" 0 1992 [w7row] =
      withNovels (mkNovels "Hugo" 1992 w7row.itags) (scrapeRows "Hugo" 0 1992 []) :=
  (scrapeRows_year_carry_forward "Hugo" 0 1992 w7row [] (by decide)).2.2 (by decide) (by decide)
/-! ### Annotator lemmas -/

theorem findUnprocessedIdx_spec :
    ∀ (l : List Novel) (i : Nat), findUnprocessedIdx l = some i →
      ∃ x, l[i]? = some x ∧ povFalsy x.pov = true := by
  intro l
  induction l with
  | nil => intro i h; simp [findUnprocessedIdx] at h
  | cons n rest ih =>
    intro i h
    simp only [findUnprocessedIdx] at h
    by_cases hp : povFalsy n.pov = true
    · rw [if_pos hp] at h
      injection h with h2
      subst h2
      exact ⟨n, by simp, hp⟩
    · rw [if_neg hp] at h
      cases hoi : findUnprocessedIdx rest with
      | none => rw [hoi] at h; exact absurd h (by simp)
      | some j =>
        rw [hoi] at h
        have h2 : j + 1 = i := by simpa using h
        subst h2
        rcases ih j hoi with ⟨x, hx, hxp⟩
        exact ⟨x, by simpa using hx, hxp⟩

theorem consumeInputs_pv :
    ∀ (inputs : List String) (pv : String) (rd : Bool) (rest : List String),
      consumeInputs inputs = some (some (pv, rd), rest) →
      pv = "first" ∨ pv = "second" ∨ pv = "third" := by
  intro inputs
  induction inputs with
  | nil => intro pv rd rest h; simp [consumeInputs] at h
  | cons i rest0 ih =>
    intro pv rd rest h
    simp only [consumeInputs] at h
    split at h
    · simp at h
    · split at h
      · simp at h
        exact Or.inl h.1.1.symm
      · split at h
        · simp at h
          exact Or.inr (Or.inl h.1.1.symm)
        · split at h
          · simp at h
            exact Or.inr (Or.inr h.1.1.symm)
          · exact ih pv rd rest h

/-- C9 core: the trace of `processRoundsFuel` obeys the save discipline from
any starting state, for any fuel and any inputs. -/
theorem processRoundsFuel_discipline :
    ∀ (fuel : Nat) (novels : List Novel) (inputs : List String),
      saveDiscipline novels (processRoundsFuel fuel novels inputs) := by
  intro fuel
  induction fuel with
  | zero => intro novels inputs; simp [processRoundsFuel, saveDiscipline]
  | succ fuel ih =>
    intro novels inputs
    simp only [processRoundsFuel]
    cases hidx : findUnprocessedIdx novels with
    | none => exact trivial
    | some idx =>
      cases hci : consumeInputs inputs with
      | none => exact trivial
      | some pr =>
        rcases pr with ⟨cmd, rest⟩
        cases cmd with
        | none => exact trivial
        | some pvrd =>
          rcases pvrd with ⟨pv, rd⟩
          show saveDiscipline novels (match novels[idx]? with
            | none => []
            | some cur => (cur, novels.set idx (annotate cur pv rd)) ::
                processRoundsFuel fuel (novels.set idx (annotate cur pv rd)) rest)
          cases hcur : novels[idx]? with
          | none => exact trivial
          | some cur =>
            show saveDiscipline novels ((cur, novels.set idx (annotate cur pv rd)) ::
              processRoundsFuel fuel (novels.set idx (annotate cur pv rd)) rest)
            simp only [saveDiscipline]
            have hfalsy : povFalsy cur.pov = true := by
              rcases findUnprocessedIdx_spec novels idx hidx with ⟨x, hx, hxp⟩
              rw [hx] at hcur
              injection hcur with h2
              rw [← h2]
              exact hxp
            exact ⟨hfalsy,
              ⟨idx, pv, rd, hidx, hcur, consumeInputs_pv inputs pv rd rest hci, rfl⟩,
              ih _ _⟩

/-! ### C9 -/

/-- C9: the annotator walks only unannotated entries and persists after each
entry.  Every round of the `process` loop prompts for the first record with
no pov assigned in the current collection, and the snapshot saved by that
round is the entire current collection with exactly that one record
annotated (with one of the three pov values); the next round continues from
the saved snapshot. -/
theorem process_save_discipline (novels : List Novel) (inputs : List String) :
    saveDiscipline (sortByYearDesc novels) (process novels inputs) := by
  unfold process
  split
  · simp [saveDiscipline]
  · exact processRoundsFuel_discipline inputs.length (sortByYearDesc novels) inputs

/-! ### C8 -/

theorem mem_sortByYearDesc {x : Novel} {l : List Novel} : x ∈ sortByYearDesc l ↔ x ∈ l :=
  List.Perm.mem_iff (List.perm_insertionSort povSortLE l)

theorem mergeItem_povValid {ex it : Novel} (hex : povValid ex.pov) (hit : povValid it.pov) :
    povValid (mergeItem ex it).pov := by
  rw [mergeItem_pov]
  by_cases hso : ex.pov.isSome = true
  · rw [if_pos hso]
    exact hex
  · rw [if_neg hso]
    exact hit

theorem scrape_povValid_aux (existing combined_new : List Novel) (after : Int)
    (hex : ∀ r ∈ existing, povValid r.pov) (hnew : ∀ r ∈ combined_new, povValid r.pov) :
    ∀ r ∈ scrape existing combined_new after, povValid r.pov := by
  intro r hr
  unfold scrape at hr
  rw [mem_sortByYearTitle] at hr
  rcases List.mem_map.mp hr with ⟨p, hp, hpv⟩
  have hall0 : allVals (fun n => povValid n.pov)
      ((existing.filter (fun n => after ≤ n.year)).foldl insStep []) :=
    foldl_insStep_allVals _ _ (allVals_nil _)
      (fun it hit => hex it (List.mem_filter.mp hit).1)
  have hall : allVals (fun n => povValid n.pov)
      ((combined_new.filter (fun n => after ≤ n.year)).foldl mergeStep
        ((existing.filter (fun n => after ≤ n.year)).foldl insStep [])) :=
    foldl_mergeStep_allVals (fun ex it hexv hitv => mergeItem_povValid hexv hitv) _ _ hall0
      (fun it hit => hnew it (List.mem_filter.mp hit).1)
  rw [← hpv]
  exact hall p hp

theorem processRoundsFuel_povValid :
    ∀ (fuel : Nat) (novels : List Novel) (inputs : List String),
      (∀ r ∈ novels, povValid r.pov) →
      ∀ pr sv, (pr, sv) ∈ processRoundsFuel fuel novels inputs →
        ∀ r ∈ sv, povValid r.pov := by
  intro fuel
  induction fuel with
  | zero => intro novels inputs _ pr sv h; simp [processRoundsFuel] at h
  | succ fuel ih =>
    intro novels inputs hv pr sv h
    simp only [processRoundsFuel] at h
    cases hidx : findUnprocessedIdx novels with
    | none => rw [hidx] at h; exact absurd h (List.not_mem_nil (pr, sv))
    | some idx =>
      rw [hidx] at h
      cases hci : consumeInputs inputs with
      | none => rw [hci] at h; exact absurd h (List.not_mem_nil (pr, sv))
      | some pr2 =>
        rw [hci] at h
        rcases pr2 with ⟨cmd, rest⟩
        cases cmd with
        | none => exact absurd h (List.not_mem_nil (pr, sv))
        | some pvrd =>
          rcases pvrd with ⟨pv, rd⟩
          have h2 : (pr, sv) ∈ (match novels[idx]? with
              | none => ([] : List (Novel × List Novel))
              | some cur => (cur, novels.set idx (annotate cur pv rd)) ::
                  processRoundsFuel fuel (novels.set idx (annotate cur pv rd)) rest) := h
          cases hcur : novels[idx]? with
          | none => rw [hcur] at h2; exact absurd h2 (List.not_mem_nil (pr, sv))
          | some cur =>
            rw [hcur] at h2
            have h3 : (pr, sv) ∈ (cur, novels.set idx (annotate cur pv rd)) ::
                processRoundsFuel fuel (novels.set idx (annotate cur pv rd)) rest := h2
            have hv2 : ∀ r ∈ novels.set idx (annotate cur pv rd), povValid r.pov := by
              intro r hrm
              rcases List.mem_or_eq_of_mem_set hrm with hrm | hrm
              · exact hv r hrm
              · rw [hrm]
                rcases consumeInputs_pv inputs pv rd rest hci with hpv | hpv | hpv <;>
                  simp [annotate, povValid, hpv]
            rcases List.mem_cons.mp h3 with h4 | h4
            · injection h4 with hpr hsv
              rw [hsv]
              exact hv2
            · exact ih _ _ hv2 pr sv h4

/-- C8: in every record the pov field is either null or one of the enum
values `first`, `second`, `third` (and `read` is a boolean by the type of
`Novel`); this predicate holds for every record the collector returns, is
preserved by the scrape merge, and is preserved in every snapshot the
annotator saves. -/
theorem pov_read_wellformed :
    (∀ (tables : List (List Row)) (award : String) (out : List Novel),
      scrape_award_novels tables award = .ok out → ∀ r ∈ out, povValid r.pov) ∧
    (∀ (existing combined_new : List Novel) (after : Int),
      (∀ r ∈ existing, povValid r.pov) → (∀ r ∈ combined_new, povValid r.pov) →
      ∀ r ∈ scrape existing combined_new after, povValid r.pov) ∧
    (∀ (novels : List Novel) (inputs : List String),
      (∀ r ∈ novels, povValid r.pov) →
      ∀ pr sv, (pr, sv) ∈ process novels inputs → ∀ r ∈ sv, povValid r.pov) := by
  refine ⟨?_, ?_, ?_⟩
  · intro tables award out hok r hr
    exact Or.inl (scrape_award_novels_shape_aux tables award out hok r hr).2.2.1
  · exact scrape_povValid_aux
  · intro novels inputs hv pr sv h
    unfold process at h
    split at h
    · cases h
    · exact processRoundsFuel_povValid inputs.length _ inputs
        (fun r hr => hv r (mem_sortByYearDesc.mp hr)) pr sv h

/-- Witness for C8: the collector part applied to the concrete one-row table
shows the scraped record `w6rec` has a valid (null) pov. -/
theorem pov_read_wellformed_witness : povValid w6rec.pov :=
  pov_read_wellformed.1 [[w6header, w6row]] "Hugo" [w6rec] rfl w6rec (by decide)
end NovelSearch
